import Mathlib

/-!
Verification of the templater repository's core: path segmentation, the
wildcard file resolver with its segment tree, wildcard value coercion,
prop scoping, the slot/execute composition protocol, the function-table
merge, and the componentHead deduplication cache.

Go strings are modelled as Lean strings over their character lists (all
inputs of interest are ASCII, where Go's byte indexing and Lean's
character indexing agree); Go maps are modelled as association lists with
last-write-wins update, which realises exactly the lookup/size/iteration
behaviour the source relies on.
-/

namespace Templater

/-- Left brace character, written numerically. -/
def lbrace : Char := Char.ofNat 123

/-- Right brace character, written numerically. -/
def rbrace : Char := Char.ofNat 125

/-- Go strings.HasSuffix on character lists. -/
def hasSuffixCL (s suffix : List Char) : Bool := suffix.isSuffixOf s

/-- Drop a suffix of the given length from the end of a character list. -/
def dropSuffixCL (s : List Char) (n : Nat) : List Char := s.take (s.length - n)

/-- Go strings.HasSuffix lifted to strings. -/
def strHasSuffix (s suffix : String) : Bool := hasSuffixCL s.data suffix.data

/-- Go s[:len(s)-len(suffix)] lifted to strings. -/
def strDropSuffix (s suffix : String) : String := ⟨dropSuffixCL s.data suffix.data.length⟩

/-- Split a character list on a separator character, Go strings.Split. -/
def splitOnChar (c : Char) : List Char → List (List Char)
  | [] => [[]]
  | x :: xs =>
    let r := splitOnChar c xs
    if x = c then [] :: r
    else
      match r with
      | [] => [[x]]
      | h :: t => (x :: h) :: t

/--
Go path segmentation, `getPathSegments` in templates.go: path.Clean the
input (drop empty and dot segments, resolve dot-dot against the stack,
keep leading dot-dot only for relative paths), strip the leading and
trailing slash, split on slash.  The fold below is the segment-level
statement of path.Clean followed by that split.
-/
def getPathSegments (p : String) : List String :=
  let rooted : Bool := p.data.head? = some '/'
  let raw : List String := (splitOnChar '/' p.data).map (fun l => (⟨l⟩ : String))
  let raw := raw.filter (fun s => s ≠ "" && s ≠ ".")
  raw.foldl
    (fun acc s =>
      if s = ".." then
        if acc ≠ [] && acc.getLast? ≠ some ".." then acc.dropLast
        else if rooted then acc
        else acc ++ [".."]
      else acc ++ [s])
    []

/-- Drop trailing occurrences of a character. -/
def dropTrailing (c : Char) (l : List Char) : List Char :=
  (l.reverse.dropWhile (fun x => x = c)).reverse

/-- Characters after the last slash. -/
def lastComponent (l : List Char) : List Char :=
  (l.reverse.takeWhile (fun x => x ≠ '/')).reverse

/-- Go path.Base: empty input gives a dot, all-slash input gives a slash,
otherwise the final component after stripping trailing slashes. -/
def goPathBase (p : String) : String :=
  if p.data = [] then "."
  else
    let l := dropTrailing '/' p.data
    if l = [] then "/"
    else ⟨lastComponent l⟩

/-- Scan a reversed character list for the extension: collect characters
until a dot (found, dot included) or a slash or the start (no extension). -/
def extFromRev (acc : List Char) : List Char → Option (List Char)
  | [] => none
  | c :: rest =>
    if c = '/' then none
    else if c = '.' then some ('.' :: acc)
    else extFromRev (c :: acc) rest

/-- Go path.Ext: the suffix of the final path element starting at its last
dot, empty when there is none. -/
def goPathExt (p : String) : String :=
  match extFromRev [] p.data.reverse with
  | none => ""
  | some e => ⟨e⟩

theorem extFromRev_length {acc rest : List Char} {e : List Char}
    (h : extFromRev acc rest = some e) :
    acc.length + 1 ≤ e.length ∧ e.length ≤ acc.length + rest.length := by
  induction rest generalizing acc with
  | nil => simp [extFromRev] at h
  | cons c cs ih =>
    rw [extFromRev] at h
    by_cases hc : c = '/'
    · simp [hc] at h
    · by_cases hd : c = '.'
      · simp [hc, hd] at h
        subst h
        constructor
        · simp
        · simp
      · simp [hc, hd] at h
        have := ih h
        simp at this ⊢
        omega

/-- The iteration of getExtendedExtension: repeatedly strip the trailing
path.Ext of the base, stopping when there is no extension, when the
extension is the whole base, or when the base of a wildcard-prefixed name
ends in a closing brace. -/
def extExtLoop (swp : Bool) (base : List Char) (res : List Char) : List Char :=
  match hx : extFromRev [] base.reverse with
  | none => res
  | some e =>
    if e = base ∨ (swp ∧ base.getLast? = some rbrace) then res
    else extExtLoop swp (base.take (base.length - e.length)) (e ++ res)
termination_by base.length
decreasing_by
  have hl := extFromRev_length hx
  simp at hl
  have hbase : base.length ≠ 0 := by
    intro h0
    have : base = [] := List.length_eq_zero.mp h0
    subst this
    simp [extFromRev] at hx
  simp
  omega

/-- Go getExtendedExtension (templates.go): take the base name, remember
whether it begins with a left brace, and strip trailing extensions until a
stop condition holds, returning their concatenation. -/
def getExtendedExtension (filename : String) : String :=
  let base := goPathBase filename
  let swp : Bool := base.data.head? = some lbrace
  ⟨extExtLoop swp base.data []⟩

/-- Wildcard test used throughout templates.go: length above two, first
byte a left brace, last byte a right brace. -/
def isWildcardSeg (s : String) : Bool :=
  decide (2 < s.data.length) && s.data.head? = some lbrace && s.data.getLast? = some rbrace

/-- The prefix tree over candidate segment sequences, `segmentTree` in
templates.go.  Go's map is realised as an association list with unique
keys; only lookup, child count and sole-child extraction are consumed. -/
inductive SegTree where
  | node : List (String × SegTree) → SegTree

/-- Children of a tree node. -/
def SegTree.children : SegTree → List (String × SegTree)
  | .node cs => cs

/-- Map lookup on a tree node. -/
def SegTree.lookup (t : SegTree) (s : String) : Option SegTree :=
  (t.children.find? (fun kv => kv.1 = s)).map Prod.snd

/-- Number of children of a tree node, Go len on the map. -/
def SegTree.childCount (t : SegTree) : Nat := t.children.length

/-- Replace the subtree under an existing key. -/
def replaceChild (cs : List (String × SegTree)) (s : String) (st : SegTree) :
    List (String × SegTree) :=
  cs.map (fun kv => if kv.1 = s then (s, st) else kv)

/-- Insert one candidate path into the tree, the inner loop of Go's
buildSegmentTree: walk existing children, adding empty nodes where keys
are missing. -/
def SegTree.insertPath : SegTree → List String → SegTree
  | t, [] => t
  | t, s :: rest =>
    match t.lookup s with
    | some st => .node (replaceChild t.children s (st.insertPath rest))
    | none => .node (t.children ++ [(s, SegTree.insertPath (.node []) rest)])

/-- Go buildSegmentTree: build the tree of the tail first, then insert the
head path. -/
def buildSegmentTree : List (List String) → SegTree
  | [] => .node []
  | p :: rest => (buildSegmentTree rest).insertPath p

/-- Resolver errors: the not-found error carries directory and expected
filename (ErrNotTemplateFileFound), the ambiguity error carries the
message data of the fmt error raised when several wildcard branches
compete (filename, directory, number of branches). -/
inductive ResolveErr where
  | notFound (dir filename : String)
  | ambiguous (filename dir : String) (branches : Nat)
deriving DecidableEq

/-- One step of the match-selection loop in findBestFilenameMatchInDir:
an exact child is descended, otherwise more than one child is the
ambiguity failure, otherwise the sole child stands in for the wildcard
(and an empty node leaves the zero-value segment with the branch
unchanged, as the Go range loop does). -/
def walkStep (branch : SegTree) (seg : String) : Option (String × SegTree) :=
  match branch.lookup seg with
  | some st => some (seg, st)
  | none =>
    if 1 < branch.childCount then none
    else
      match branch.children with
      | [] => some ("", branch)
      | kv :: _ => some (kv.1, kv.2)

/-- The full match-selection loop: resolve each query segment in turn,
returning the chosen segments and the node reached, or failing on the
first position with competing wildcard branches. -/
def walkQuery (branch : SegTree) : List String → Option (List String × SegTree)
  | [] => some ([], branch)
  | seg :: rest =>
    match walkStep branch seg with
    | none => none
    | some (s, st) =>
      match walkQuery st rest with
      | none => none
      | some (l, b) => some (s :: l, b)

/-- The phase of findBestFilenameMatchInDir after candidate collection:
build the segment tree, run the selection loop, and append the index
child when one remains after all query segments. -/
def resolveFromMatches (filename dir : String) (cands : List (List String))
    (q : List String) : Except ResolveErr (List String) :=
  let tree := buildSegmentTree cands
  match hw : walkQuery tree q with
  | none =>
    -- the loop failed at some position: recompute that node's child count
    -- for the error message, as the Go error formats len(branch)
    .error (.ambiguous filename dir (ambiguousCount tree q))
  | some (segs, branch) =>
    match branch.lookup "index" with
    | some _ => .ok (segs ++ ["index"])
    | none => .ok segs
where
  /-- Child count at the node where the loop stopped. -/
  ambiguousCount : SegTree → List String → Nat
    | t, [] => t.childCount
    | t, seg :: rest =>
      match walkStep t seg with
      | none => t.childCount
      | some (_, st) => ambiguousCount st rest

/-- A filesystem to walk: every path under the root in depth-first
lexical order (directories before their contents), as segment lists with
the on-disk names, marked whether the entry is a directory.  The root
itself is not listed; its visit in Go always proceeds into the walk. -/
abbrev FSList := List (List String × Bool)

/-- Segment sequence of a visited file with the extension stripped from
its final component, the pWithoutExt computation in the walk callback. -/
def fileStrippedSegs (p : List String) (ext : String) : List String :=
  match p.getLast? with
  | none => []
  | some fname =>
    if strHasSuffix fname ext then
      let base := strDropSuffix fname ext
      if base = "" then p.dropLast else p.dropLast ++ [base]
    else p

/-- The per-segment filter loop of the walk callback: a segment passes
when it matches the query literally, when it is the index name in final
position of an index-arity entry, or when (after stripping the extension
from a matching-arity file's final segment) it is a wildcard. -/
def segLoopOk (q : List String) (ext : String) (isDir emfopd eif : Bool)
    (total : Nat) : Nat → List String → Bool
  | _, [] => true
  | i, seg :: rest =>
    if q.get? i = some seg then segLoopOk q ext isDir emfopd eif total (i + 1) rest
    else
      let isLast : Bool := i + 1 = total
      if isLast && eif && seg = "index" then
        segLoopOk q ext isDir emfopd eif total (i + 1) rest
      else
        let base :=
          if isLast && emfopd && !isDir && strHasSuffix seg ext then strDropSuffix seg ext
          else seg
        if isWildcardSeg base then segLoopOk q ext isDir emfopd eif total (i + 1) rest
        else false

/-- Decision of the walk callback for one entry. -/
inductive Visit where
  | collect (segs : List String)
  | pass
  | skipDir
deriving DecidableEq

/-- The walk callback of findBestFilenameMatchInDir: arity bookkeeping,
directory pruning, the segment filter loop, and candidate collection. -/
def visitEntry (q : List String) (ext : String) (p : List String) (isDir : Bool) : Visit :=
  let segs := if isDir then p else fileStrippedSegs p ext
  let emfopd : Bool := segs.length = q.length
  let eif : Bool := segs.length = q.length + 1
  if eif && isDir then .skipDir
  else if !emfopd && !eif && !isDir then .pass
  else if segLoopOk q ext isDir emfopd eif segs.length 0 segs then
    if !isDir && (emfopd || eif) then .collect segs else .pass
  else if isDir then .skipDir
  else .pass

/-- Run the walk over the listed entries, honouring SkipDir by recording
pruned directory prefixes, and collect the surviving candidates. -/
def walkCollect (q : List String) (ext : String) : List (List String × Bool) →
    List (List String) → List (List String)
  | [], _ => []
  | (p, isDir) :: rest, skips =>
    if skips.any (fun pre => pre.isPrefixOf p) then walkCollect q ext rest skips
    else
      match visitEntry q ext p isDir with
      | .collect segs => segs :: walkCollect q ext rest skips
      | .pass => walkCollect q ext rest skips
      | .skipDir => walkCollect q ext rest (p :: skips)

/-- Join segments with slashes. -/
def joinSlash (l : List String) : String := String.intercalate "/" l

/-- Go findBestFilenameMatchInDir over the filesystem model: collect the
candidates by walking the directory, fail with ErrNotTemplateFileFound
when none survives, otherwise select through the segment tree and return
the joined relative path with the extension restored. -/
def findBestFilenameMatchInDir (filenameBase ext dir : String) (fs : FSList) :
    Except ResolveErr String :=
  let filename := filenameBase ++ ext
  let q := getPathSegments filenameBase
  let cands := walkCollect q ext fs []
  if cands = [] then .error (.notFound dir filename)
  else
    match resolveFromMatches filename dir cands q with
    | .error e => .error e
    | .ok segs => .ok (joinSlash segs ++ ext)

/-- Kinds of strconv parse failure: malformed syntax or out of range. -/
inductive NumErrKind where
  | invalidSyntax
  | outOfRange
deriving DecidableEq

/-- Digit value of a character under Go's strconv rules: decimal digits,
then lowercase and uppercase letters, accepted when below the base. -/
def digitVal (base : Nat) (c : Char) : Option Nat :=
  let d :=
    if '0' ≤ c ∧ c ≤ '9' then some (c.toNat - 48)
    else if 'a' ≤ c ∧ c ≤ 'z' then some (c.toNat - 97 + 10)
    else if 'A' ≤ c ∧ c ≤ 'Z' then some (c.toNat - 65 + 10)
    else none
  match d with
  | some v => if v < base then some v else none
  | none => none

/-- Accumulate the digits of a nonempty character list in the base. -/
def parseDigits (base : Nat) (l : List Char) : Option Nat :=
  l.foldl
    (fun acc c =>
      match acc, digitVal base c with
      | some a, some d => some (a * base + d)
      | _, _ => none)
    (some 0)

/-- Go strconv.ParseUint for the bases the source uses: no sign prefix is
permitted, the string must be nonempty and all digits of the base, and a
mathematical value beyond the width is the range error. -/
def goParseUint (s : String) (base bitSize : Nat) : Except NumErrKind Nat :=
  if s.data = [] then .error .invalidSyntax
  else
    match parseDigits base s.data with
    | none => .error .invalidSyntax
    | some n => if n < 2 ^ bitSize then .ok n else .error .outOfRange

/-- Go strconv.ParseInt: an optional sign followed by the unsigned parse,
range-checked against the signed width. -/
def goParseInt (s : String) (base bitSize : Nat) : Except NumErrKind Int :=
  match s.data with
  | [] => .error .invalidSyntax
  | c :: rest =>
    let (neg, digits) :=
      if c = '-' then (true, rest)
      else if c = '+' then (false, rest)
      else (false, c :: rest)
    if digits = [] then .error .invalidSyntax
    else
      match parseDigits base digits with
      | none => .error .invalidSyntax
      | some n =>
        if neg then
          if n ≤ 2 ^ (bitSize - 1) then .ok (-(n : Int)) else .error .outOfRange
        else
          if n < 2 ^ (bitSize - 1) then .ok (n : Int) else .error .outOfRange

/-- ASCII lowercase mapping, Go strings.ToLower on ASCII input. -/
def asciiLower (s : String) : String :=
  ⟨s.data.map (fun c => if 'A' ≤ c ∧ c ≤ 'Z' then Char.ofNat (c.toNat + 32) else c)⟩

/-- The word size of strconv.IntSize on the 64-bit platforms the module
targets. -/
def intSize : Nat := 64

/-- Typed values a wildcard segment can coerce to, one constructor per
case of parseWildcardValue.  Floating point and complex values are kept
as the raw bit interpretation their platform parser returns, since their
parsing is delegated to strconv and out of the repository. -/
inductive GoValue where
  | vstr (s : String)
  | vbool (b : Bool)
  | vint (n : Int)
  | vint8 (n : Int)
  | vint16 (n : Int)
  | vint32 (n : Int)
  | vint64 (n : Int)
  | vuint (n : Nat)
  | vuintptr (n : Nat)
  | vuint8 (n : Nat)
  | vuint16 (n : Nat)
  | vuint32 (n : Nat)
  | vuint64 (n : Nat)
  | vfloat32 (bits : Nat)
  | vfloat64 (bits : Nat)
  | vcomplex64 (bits : Nat × Nat)
  | vcomplex128 (bits : Nat × Nat)
  | vbyte (n : Nat)
  | vrune (n : Int)
deriving DecidableEq

/-- Cause stored in the Err field of ErrInvalidWildcardValue: either a
message set by errorf or a wrapped strconv failure. -/
inductive WErrCause where
  | message (s : String)
  | numError (k : NumErrKind)
deriving DecidableEq

/-- ErrInvalidWildcardValue: the offending raw value, the requested type
name, and the underlying cause. -/
structure WErr where
  value : String
  type : String
  cause : WErrCause
deriving DecidableEq

/-- Platform parsers for the floating point and complex branches, which
strconv provides outside this repository: each yields the bit pattern of
the parsed value or a failure. -/
structure FloatParsers where
  parseFloat : String → Nat → Except NumErrKind Nat
  parseComplex : String → Nat → Except NumErrKind (Nat × Nat)

/-- A fixed stand-in platform parser used to state closed facts about
branches that never consult it. -/
def nullFloatParsers : FloatParsers :=
  { parseFloat := fun _ _ => .error .invalidSyntax
    parseComplex := fun _ _ => .error .invalidSyntax }

/-- A platform parser stand-in whose parses succeed on one fixed bit
pattern, used to instantiate conditional facts about the float and
complex branches at a concrete input. -/
def sampleFloatParsers : FloatParsers :=
  { parseFloat := fun _ _ => .ok 1069547520
    parseComplex := fun _ _ => .ok (1069547520, 0) }

/-- Go parseWildcardValue: dispatch on the fixed type vocabulary, using
decimal integer parses at each width, the hexadecimal byte parse, the
case-insensitive boolean literals, the verbatim string, and the platform
float/complex parsers. -/
def parseWildcardValue (fp : FloatParsers) (typeName value : String) :
    Except WErr GoValue :=
  let werr : WErrCause → WErr := fun c => ⟨value, typeName, c⟩
  let wrapInt : Except NumErrKind Int → (Int → GoValue) → Except WErr GoValue :=
    fun r mk =>
      match r with
      | .error e => .error (werr (.numError e))
      | .ok n => .ok (mk n)
  let wrapNat : Except NumErrKind Nat → (Nat → GoValue) → Except WErr GoValue :=
    fun r mk =>
      match r with
      | .error e => .error (werr (.numError e))
      | .ok n => .ok (mk n)
  if typeName = "bool" then
    if asciiLower value = "true" then .ok (.vbool true)
    else if asciiLower value = "false" then .ok (.vbool false)
    else .error (werr (.message "expected \"true\" or \"false\""))
  else if typeName = "int" then wrapInt (goParseInt value 10 intSize) .vint
  else if typeName = "int8" then wrapInt (goParseInt value 10 8) .vint8
  else if typeName = "int16" then wrapInt (goParseInt value 10 16) .vint16
  else if typeName = "int32" then wrapInt (goParseInt value 10 32) .vint32
  else if typeName = "int64" then wrapInt (goParseInt value 10 64) .vint64
  else if typeName = "uint" then wrapNat (goParseUint value 10 intSize) .vuint
  else if typeName = "uintptr" then wrapNat (goParseUint value 10 intSize) .vuintptr
  else if typeName = "uint8" then wrapNat (goParseUint value 10 8) .vuint8
  else if typeName = "uint16" then wrapNat (goParseUint value 10 16) .vuint16
  else if typeName = "uint32" then wrapNat (goParseUint value 10 32) .vuint32
  else if typeName = "uint64" then wrapNat (goParseUint value 10 64) .vuint64
  else if typeName = "float32" then
    match fp.parseFloat value 32 with
    | .error e => .error (werr (.numError e))
    | .ok bits => .ok (.vfloat32 bits)
  else if typeName = "float64" then
    match fp.parseFloat value 64 with
    | .error e => .error (werr (.numError e))
    | .ok bits => .ok (.vfloat64 bits)
  else if typeName = "complex64" then
    match fp.parseComplex value 64 with
    | .error e => .error (werr (.numError e))
    | .ok bits => .ok (.vcomplex64 bits)
  else if typeName = "complex128" then
    match fp.parseComplex value 128 with
    | .error e => .error (werr (.numError e))
    | .ok bits => .ok (.vcomplex128 bits)
  else if typeName = "byte" then wrapNat (goParseUint value 16 8) .vbyte
  else if typeName = "rune" then wrapInt (goParseInt value 10 32) .vrune
  else if typeName = "string" then .ok (.vstr value)
  else .error (werr (.message ("unrecognized wildcard type: " ++ typeName)))

/-- Go parseWildcard: split the wildcard key on the first dot; without a
type suffix the raw string passes through under the whole key, otherwise
the suffix drives the typed coercion and the part before the dot is the
parameter key. -/
def parseWildcard (fp : FloatParsers) (wildcardKey value : String) :
    Except WErr (String × GoValue) :=
  match splitOnChar '.' wildcardKey.data with
  | [] => .ok (wildcardKey, .vstr value)
  | [_] => .ok (wildcardKey, .vstr value)
  | k :: restParts =>
    let suffix := String.intercalate "." (restParts.map (fun l => (⟨l⟩ : String)))
    match parseWildcardValue fp suffix value with
    | .error e => .error e
    | .ok v => .ok ((⟨k⟩ : String), v)

/-- Little-endian decimal digits of a natural number; the fuel only
bounds the recursion and any fuel of at least the number itself is
enough. -/
def natDigitsRev (fuel n : Nat) : List Nat :=
  match fuel with
  | 0 => []
  | f + 1 => if n = 0 then [] else n % 10 :: natDigitsRev f (n / 10)

/-- Decimal digit character of a digit value. -/
def digitChar (d : Nat) : Char := Char.ofNat (48 + d)

/-- Decimal digit characters of a natural number, most significant first. -/
def natDecimalDigits (n : Nat) : List Char :=
  if n = 0 then ['0']
  else ((natDigitsRev n n).map digitChar).reverse

/-- Decimal rendering of a natural number, Go strconv.FormatUint and the
fmt verb for unsigned values. -/
def formatNat (n : Nat) : String := ⟨natDecimalDigits n⟩

/-- Decimal rendering of an integer, Go strconv.FormatInt and the fmt
verb for signed values. -/
def formatInt (n : Int) : String :=
  if n < 0 then ⟨'-' :: natDecimalDigits n.natAbs⟩ else ⟨natDecimalDigits n.natAbs⟩

/-- Go strconv.FormatBool and the fmt verb for booleans. -/
def formatBool (b : Bool) : String := if b then "true" else "false"

/-- Association-list realisation of a Go string-keyed map: set replaces
any binding of the key and appends, lookup finds the unique binding. -/
def alSet {α : Type} (l : List (String × α)) (k : String) (v : α) : List (String × α) :=
  l.filter (fun kv => kv.1 ≠ k) ++ [(k, v)]

/-- Map lookup. -/
def alLookup {α : Type} (l : List (String × α)) (k : String) : Option α :=
  (l.find? (fun kv => kv.1 = k)).map Prod.snd

/-- Last-binding lookup; on lists whose keys are unique it coincides with
alLookup and is the natural reading of maps.Copy applied pair by pair. -/
def alLookupLast {α : Type} : List (String × α) → String → Option α
  | [], _ => none
  | kv :: rest, k =>
    (alLookupLast rest k).orElse (fun _ => if kv.1 = k then some kv.2 else none)

/-- Go maps.Copy(dst, src): write every binding of src into dst. -/
def alCopy {α : Type} (dst src : List (String × α)) : List (String × α) :=
  src.foldl (fun d kv => alSet d kv.1 kv.2) dst

/-- Values carried in a props map, Go's any: a string or one of the other
value shapes the tests exercise; the non-string constructors are what the
slot type assertion rejects. -/
inductive PropValue where
  | pstr (s : String)
  | pint (n : Int)
  | pbool (b : Bool)
  | popaque (id : Nat)
deriving DecidableEq

/-- A props map. -/
abbrev Props := List (String × PropValue)

/-- Malformed key/value argument lists, the two failures of NewKVSProps:
an odd argument count (carrying the count the message reports) or a
non-string key (carrying the one-based positional argument the message
names). -/
inductive PropsErr where
  | oddArgs (received : Nat)
  | nonStringKey (position : Nat)
deriving DecidableEq

/-- Pairing loop of NewKVSProps; the odd-length guard has already run, so
the single-leftover case is unreachable. -/
def kvsLoop : Nat → List PropValue → Props → Except PropsErr Props
  | _, [], acc => .ok acc
  | i, k :: v :: rest, acc =>
    match k with
    | .pstr s => kvsLoop (i + 2) rest (alSet acc s v)
    | _ => .error (.nonStringKey (i + 1))
  | _, [_], acc => .ok acc

/-- Go funcs.NewKVSProps: reject an odd argument count, then fold the
pairs into a map, rejecting any key that is not a string and naming its
position. -/
def NewKVSProps (args : List PropValue) : Except PropsErr Props :=
  if args.length % 2 = 1 then .error (.oddArgs args.length)
  else kvsLoop 0 args []

/-- Go addProps (templates.go): build the additional props from the pairs,
then extend a fresh copy of the caller's props with them, leaving the
caller's map untouched. -/
def addProps (props : Props) (kvs : List PropValue) : Except PropsErr Props :=
  match NewKVSProps kvs with
  | .error e => .error e
  | .ok additionalProps => .ok (alCopy (alCopy [] props) additionalProps)

/-- Errors of the execution layer: the resolver's not-found error, a
malformed props error, a plain fmt message, a wrapping fmt error, and an
errors.Join of two errors. -/
inductive TError where
  | notFoundFile (dir filename : String)
  | propsFailure (e : PropsErr)
  | message (s : String)
  | wrap (s : String) (inner : TError)
  | join (a b : TError)
deriving DecidableEq

/-- Go errors.As(err, **ErrNotTemplateFileFound): the chain reached
through Unwrap (including both branches of a join) contains the
not-found error. -/
def TError.isNotFound : TError → Bool
  | .notFoundFile _ _ => true
  | .propsFailure _ => false
  | .message _ => false
  | .wrap _ inner => inner.isNotFound
  | .join a b => a.isNotFound || b.isNotFound

/-- Go executionContext.execute given the outcomes of the page attempt
and of the component attempt: return the page render on success, give up
at once unless the page error is the not-found kind, otherwise fall back
to the component and join both errors when the fallback also fails. -/
def contextExecute (pageRes compRes : Except TError String) : Except TError String :=
  match pageRes with
  | .ok b => .ok b
  | .error perr =>
    if perr.isNotFound then
      match compRes with
      | .ok b => .ok b
      | .error cerr => .error (.join perr cerr)
    else .error perr

/-- Go Templater.ExecutePage given the page executor: build the props
from the key/value arguments, failing on a malformed list before any
execution. ExecuteComponent and Execute share the same first step. -/
def templaterEntry (run : Props → Except TError String) (kvs : List PropValue) :
    Except TError String :=
  match NewKVSProps kvs with
  | .error e => .error (.propsFailure e)
  | .ok props => run props

/-- An in-memory set of parsed template blocks, name to parse-tree
identity; the engine that executes a block is out of the repository and
is taken as a parameter where needed. -/
abbrev TemplateSet := List (String × Nat)

/-- Go executionContext.executeSlot given the engine's block executor:
a missing parent template set is the internal-invariant failure, then
the definition name for the slot is looked up under the reserved hash
key, absent content and non-string definition names fail with their
messages, and otherwise the named block runs against the props with the
engine failure wrapped. -/
def executeSlot (exec : TemplateSet → String → Props → Except TError String)
    (parentTemplate : Option TemplateSet) (name : String) (props : Props) :
    Except TError String :=
  match parentTemplate with
  | none => .error (.message "parent template not set")
  | some ts =>
    match alLookup props ("#" ++ name) with
    | none => .error (.message ("slot " ++ name ++ " content not defined"))
    | some v =>
      match v with
      | .pstr contentDefinitionName =>
        match exec ts contentDefinitionName props with
        | .error e => .error (.wrap ("failed to execute slot " ++ name) e)
        | .ok b => .ok b
      | _ => .error (.message ("slot " ++ name ++ " definition name is not a string"))

/-- Entries of a function table, distinguished by provenance: the two
builtins of buildFuncMap, the engine default from funcs.DefaultMap, and
caller-supplied functions. -/
inductive FuncV where
  | componentFn
  | slotFn
  | propsDefault
  | caller (id : Nat)
deriving DecidableEq

/-- A function table. -/
abbrev FuncMap := List (String × FuncV)

/-- Go funcs.DefaultMap: the props builder alone. -/
def defaultMap : FuncMap := [("props", .propsDefault)]

/-- Go executionContext.buildFuncMap: start from the component and slot
builtins, copy the engine defaults over them, then copy the configured
function table over everything. -/
def buildFuncMap (cfgFuncs : FuncMap) : FuncMap :=
  alCopy (alCopy [("component", .componentFn), ("slot", .slotFn)] defaultMap) cfgFuncs

/-- Go Templater.WithFuncs: the configured table becomes the injected
table with the previously configured table copied over it. -/
def withFuncsMerge (m prevFuncs : FuncMap) : FuncMap :=
  alCopy (alCopy [] m) prevFuncs

/-- The two memos of buildPageFuncMap scoped to one page render:
componentHeadSeen and componentHeadPropsSeen. -/
structure HeadState where
  headSeen : List String
  propsSeen : List (String × List (List PropValue))
deriving DecidableEq

/-- Argument lists already rendered for a component name. -/
def HeadState.seenArgs (st : HeadState) (name : String) : List (List PropValue) :=
  (alLookup st.propsSeen name).getD []

/-- Mark a name seen and append its argument list, the two writes made
before recursing. -/
def HeadState.record (st : HeadState) (name : String) (args : List PropValue) : HeadState :=
  { headSeen := if st.headSeen.any (fun s => s = name) then st.headSeen else st.headSeen ++ [name]
    propsSeen := alSet st.propsSeen name (st.seenArgs name ++ [args]) }

/-- Go uniqueComponentHeadExecutor in buildPageFuncMap, with the head
render (parse the head file and execute it, possibly re-entering this
very function) abstracted as a state-passing parameter: a name already
seen with a positionally equal argument list is a no-op yielding empty
output, anything else is recorded and then rendered. -/
def headCall (render : String → List PropValue → HeadState → (String × HeadState))
    (st : HeadState) (name : String) (args : List PropValue) : String × HeadState :=
  if st.headSeen.any (fun s => s = name) && (st.seenArgs name).any (fun a => a = args) then
    ("", st)
  else render name args (st.record name args)

/-- Containment order on head states: everything recorded stays
recorded.  The abstract head render is assumed to respect it, which the
concrete executor does since it only ever appends to the two memos. -/
def HeadState.le (s t : HeadState) : Prop :=
  (∀ n, n ∈ s.headSeen → n ∈ t.headSeen) ∧
    (∀ n a, a ∈ s.seenArgs n → a ∈ t.seenArgs n)

theorem find?_filter_ne {α : Type} (l : List (String × α)) (k k2 : String) (hne : ¬ k2 = k) :
    (l.filter (fun kv => kv.1 ≠ k)).find? (fun kv => kv.1 = k2)
      = l.find? (fun kv => kv.1 = k2) := by
  induction l with
  | nil => rfl
  | cons kv rest ih =>
    rw [List.filter_cons]
    by_cases hk : kv.1 = k
    · rw [if_neg (by simp [hk])]
      rw [ih, List.find?_cons]
      have h2 : (decide (kv.1 = k2)) = false := by
        simp [hk]
        exact fun a => hne a.symm
      rw [h2]
    · rw [if_pos (by simp [hk])]
      rw [List.find?_cons, List.find?_cons]
      by_cases h2 : kv.1 = k2
      · rw [show (decide (kv.1 = k2)) = true by simp [h2]]
      · rw [show (decide (kv.1 = k2)) = false by simp [h2]]
        exact ih

theorem find?_filter_self {α : Type} (l : List (String × α)) (k : String) :
    (l.filter (fun kv => kv.1 ≠ k)).find? (fun kv => kv.1 = k) = none := by
  rw [List.find?_eq_none]
  intro x hx
  have := List.of_mem_filter hx
  simpa using this

theorem alLookup_alSet {α : Type} (l : List (String × α)) (k k2 : String) (v : α) :
    alLookup (alSet l k v) k2 = if k2 = k then some v else alLookup l k2 := by
  unfold alLookup alSet
  by_cases h : k2 = k
  · subst h
    rw [List.find?_append, find?_filter_self]
    simp [List.find?_cons]
  · rw [List.find?_append, find?_filter_ne l k k2 h]
    have hk : ¬ (k = k2) := fun a => h a.symm
    cases hf : l.find? (fun kv => kv.1 = k2) with
    | some kv => simp [h, hf]
    | none => simp [List.find?_cons, h, hf, hk]

theorem alLookup_alCopy {α : Type} (src dst : List (String × α)) (k : String) :
    alLookup (alCopy dst src) k =
      (alLookupLast src k).orElse (fun _ => alLookup dst k) := by
  induction src generalizing dst with
  | nil => simp [alCopy, alLookupLast, Option.orElse]
  | cons kv rest ih =>
    have step : alCopy dst (kv :: rest) = alCopy (alSet dst kv.1 kv.2) rest := by
      simp [alCopy]
    rw [step, ih, alLookupLast]
    rcases hrest : alLookupLast rest k with _ | v2
    · simp [Option.orElse, alLookup_alSet]
      by_cases h : kv.1 = k
      · simp [h, eq_comm]
      · have : ¬ (k = kv.1) := fun a => h a.symm
        simp [h, this]
    · simp [Option.orElse]

theorem alLookup_nil {α : Type} (k : String) : alLookup ([] : List (String × α)) k = none := rfl

/--
C3.  Given the outcomes of the page attempt and the component attempt,
executionContext.execute returns the page render when the page attempt
succeeds; a page error that is not the not-found kind is returned at once
whatever the component attempt would produce; a not-found page error
falls back to the component attempt and returns its render; and when the
fallback also fails the result is the errors.Join of the page error and
the component error.
-/
theorem contextExecute_fallback (pageRes compRes : Except TError String) :
    (∀ b, pageRes = .ok b → contextExecute pageRes compRes = .ok b)
    ∧ (∀ perr, pageRes = .error perr → perr.isNotFound = false →
        ∀ other : Except TError String, contextExecute pageRes other = .error perr)
    ∧ (∀ perr b, pageRes = .error perr → perr.isNotFound = true → compRes = .ok b →
        contextExecute pageRes compRes = .ok b)
    ∧ (∀ perr cerr, pageRes = .error perr → perr.isNotFound = true → compRes = .error cerr →
        contextExecute pageRes compRes = .error (.join perr cerr)) := by
  refine ⟨?_, ?_, ?_, ?_⟩
  · intro b h
    subst h
    rfl
  · intro perr h hnf other
    subst h
    simp [contextExecute, hnf]
  · intro perr b h hnf hc
    subst h
    subst hc
    simp [contextExecute, hnf]
  · intro perr cerr h hnf hc
    subst h
    subst hc
    simp [contextExecute, hnf]

/-- Closed instance of the execute fallback: a not-found page error and a
failing component attempt produce the joined error. -/
theorem contextExecute_fallback_witness :
    contextExecute (.error (.notFoundFile "templates/pages" "shop.html.tmpl"))
        (.error (.message "failed to execute component shop"))
      = .error (.join (.notFoundFile "templates/pages" "shop.html.tmpl")
          (.message "failed to execute component shop"))
    ∧ contextExecute (.error (.message "failed to parse layout html file"))
        (.ok "unused")
      = .error (.message "failed to parse layout html file") :=
  ⟨(contextExecute_fallback _ _).2.2.2 _ _ rfl rfl rfl,
   (contextExecute_fallback (.error (.message "failed to parse layout html file"))
      (.ok "unused")).2.1 _ rfl rfl _⟩

/--
C5.  executeSlot fails with the parent-template invariant message when the
context holds no template set; with a template set present it fails with
the content-not-defined message exactly when the props have no entry under
the reserved hash key, fails with the not-a-string message exactly when
that entry is not a string, and otherwise runs the named block designated
by the string value against the props, wrapping an engine failure.
-/
theorem executeSlot_contract
    (exec : TemplateSet → String → Props → Except TError String)
    (pt : Option TemplateSet) (name : String) (props : Props) :
    (pt = none →
      executeSlot exec pt name props = .error (.message "parent template not set"))
    ∧ (∀ ts, pt = some ts → alLookup props ("#" ++ name) = none →
        executeSlot exec pt name props =
          .error (.message ("slot " ++ name ++ " content not defined")))
    ∧ (∀ ts v, pt = some ts → alLookup props ("#" ++ name) = some v →
        (∀ s, v ≠ .pstr s) →
        executeSlot exec pt name props =
          .error (.message ("slot " ++ name ++ " definition name is not a string")))
    ∧ (∀ ts d, pt = some ts → alLookup props ("#" ++ name) = some (.pstr d) →
        executeSlot exec pt name props =
          match exec ts d props with
          | .ok b => .ok b
          | .error e => .error (.wrap ("failed to execute slot " ++ name) e)) := by
  refine ⟨?_, ?_, ?_, ?_⟩
  · intro h
    subst h
    rfl
  · intro ts h hl
    subst h
    simp [executeSlot, hl]
  · intro ts v h hl hv
    subst h
    cases v with
    | pstr s => exact absurd rfl (hv s)
    | pint n => simp [executeSlot, hl]
    | pbool b => simp [executeSlot, hl]
    | popaque i => simp [executeSlot, hl]
  · intro ts d h hl
    subst h
    unfold executeSlot
    rw [hl]
    cases hx : exec ts d props <;> simp [hx]

/-- Closed instance of the slot contract: a missing hash-key entry is the
content-not-defined failure, and a non-string entry is the
definition-name failure. -/
theorem executeSlot_contract_witness :
    executeSlot (fun _ _ _ => .ok "rendered") (some [("body", 0)]) "header" []
      = .error (.message "slot header content not defined")
    ∧ executeSlot (fun _ _ _ => .ok "rendered") (some [("body", 0)]) "header"
        [("#header", .pint 3)]
      = .error (.message "slot header definition name is not a string")
    ∧ executeSlot (fun _ _ _ => .ok "rendered") (some [("body", 0)]) "header"
        [("#header", .pstr "my-def")]
      = .ok "rendered" :=
  ⟨(executeSlot_contract _ _ _ _).2.1 _ rfl rfl,
   (executeSlot_contract _ _ _ _).2.2.1 _ _ rfl rfl (by intro s; simp),
   (executeSlot_contract (fun _ _ _ => .ok "rendered") (some [("body", 0)]) "header"
      [("#header", .pstr "my-def")]).2.2.2 _ _ rfl rfl⟩

theorem orElse_none {α : Type} (o : Option α) : (o.orElse fun _ => none) = o := by
  cases o <;> rfl

/--
C6.  addProps builds the props a nested invocation observes as a fresh
copy of the caller's props extended, and possibly overridden, by the
explicit key/value arguments: every lookup in the child's map is the
argument binding when one exists and the caller's binding otherwise, so
an invocation overriding X observes the inner value while one without an
override observes the caller's value, and the caller's map is a value the
construction never modifies.
-/
theorem addProps_copy_on_extend (props : Props) (kvs : List PropValue) (ap cpy : Props)
    (hkvs : NewKVSProps kvs = .ok ap) (hadd : addProps props kvs = .ok cpy) :
    (∀ k, alLookup cpy k = (alLookupLast ap k).orElse (fun _ => alLookupLast props k))
    ∧ (∀ inner, alLookupLast ap "X" = some inner → alLookup cpy "X" = some inner)
    ∧ (alLookupLast ap "X" = none → alLookup cpy "X" = alLookupLast props "X") := by
  have hc : cpy = alCopy (alCopy [] props) ap := by
    unfold addProps at hadd
    rw [hkvs] at hadd
    exact (Except.ok.injEq _ _).mp hadd.symm
  have main : ∀ k, alLookup cpy k =
      (alLookupLast ap k).orElse (fun _ => alLookupLast props k) := by
    intro k
    rw [hc, alLookup_alCopy, alLookup_alCopy, alLookup_nil, orElse_none]
  refine ⟨main, ?_, ?_⟩
  · intro inner hin
    rw [main, hin]
    rfl
  · intro hnone
    rw [main, hnone]
    rfl

/-- Closed instance of prop scoping: a component invoked with an explicit
X observes the inner value, and one invoked without arguments observes
the caller's outer value. -/
theorem addProps_copy_on_extend_witness :
    alLookup (alCopy (alCopy [] [("X", PropValue.pstr "outer")])
        [("X", PropValue.pstr "inner")]) "X" = some (PropValue.pstr "inner")
    ∧ alLookup (alCopy (alCopy [] [("X", PropValue.pstr "outer")]) []) "X"
      = some (PropValue.pstr "outer") :=
  ⟨(addProps_copy_on_extend [("X", PropValue.pstr "outer")]
      [PropValue.pstr "X", PropValue.pstr "inner"] [("X", PropValue.pstr "inner")] _
      rfl rfl).2.1 _ (by decide),
   by
    have h := (addProps_copy_on_extend [("X", PropValue.pstr "outer")] [] [] _
      rfl rfl).2.2 (by decide)
    rw [h]
    decide⟩

/-- String test of a prop value, the Go type assertion v.(string). -/
def PropValue.isStr : PropValue → Bool
  | .pstr _ => true
  | _ => false

/-- The flat argument list of a sequence of key/value pairs, how a
well-formed call site lays out its arguments. -/
def flattenPairs (ps : List (String × PropValue)) : List PropValue :=
  ps.flatMap (fun kv => [.pstr kv.1, kv.2])

theorem flattenPairs_length (ps : List (String × PropValue)) :
    (flattenPairs ps).length = 2 * ps.length := by
  induction ps with
  | nil => rfl
  | cons kv rest ih =>
    simp [flattenPairs] at ih ⊢
    omega

theorem kvsLoop_flatten_ok (ps : List (String × PropValue)) :
    ∀ i acc, kvsLoop i (flattenPairs ps) acc = .ok (alCopy acc ps) := by
  induction ps with
  | nil => intro i acc; rfl
  | cons kv rest ih =>
    intro i acc
    show kvsLoop i (.pstr kv.1 :: kv.2 :: flattenPairs rest) acc = _
    rw [kvsLoop, ih]
    rfl

theorem kvsLoop_flatten_bad (ps : List (String × PropValue)) :
    ∀ i acc (bad : PropValue) (rest : List PropValue), bad.isStr = false → rest ≠ [] →
      kvsLoop i (flattenPairs ps ++ bad :: rest) acc
        = .error (.nonStringKey (i + 2 * ps.length + 1)) := by
  induction ps with
  | nil =>
    intro i acc bad rest hbad hrest
    match rest with
    | [] => exact absurd rfl hrest
    | r :: rest2 =>
      show kvsLoop i (bad :: r :: rest2) acc = _
      cases bad with
      | pstr s => simp [PropValue.isStr] at hbad
      | pint n => rfl
      | pbool b => rfl
      | popaque j => rfl
  | cons kv tail ih =>
    intro i acc bad rest hbad hrest
    show kvsLoop i (.pstr kv.1 :: kv.2 :: (flattenPairs tail ++ bad :: rest)) acc = _
    rw [kvsLoop, ih (i + 2) _ bad rest hbad hrest]
    have : i + 2 + 2 * tail.length + 1 = i + 2 * (kv :: tail).length + 1 := by
      simp
      omega
    rw [this]

/--
C8.  NewKVSProps, the shared first step of the props and component/slot
template functions and of the public entry points, rejects an odd
argument count at once with the error carrying the received count,
rejects the first non-string key with the error naming that one-based
positional argument, and otherwise produces the string-keyed map of the
pairs, in which every lookup yields the last pair written for the key;
templaterEntry surfaces the malformed-props failure before running
anything.
-/
theorem NewKVSProps_validation :
    (∀ args : List PropValue, args.length % 2 = 1 →
      NewKVSProps args = .error (.oddArgs args.length))
    ∧ (∀ (ps : List (String × PropValue)) (bad : PropValue) (rest : List PropValue),
        bad.isStr = false → (flattenPairs ps ++ bad :: rest).length % 2 = 0 →
        NewKVSProps (flattenPairs ps ++ bad :: rest)
          = .error (.nonStringKey (2 * ps.length + 1)))
    ∧ (∀ ps : List (String × PropValue),
        NewKVSProps (flattenPairs ps) = .ok (alCopy [] ps)
        ∧ ∀ k, alLookup (alCopy [] ps) k = alLookupLast ps k)
    ∧ (∀ (run : Props → Except TError String) (args : List PropValue) (e : PropsErr),
        NewKVSProps args = .error e →
        templaterEntry run args = .error (.propsFailure e)) := by
  refine ⟨?_, ?_, ?_, ?_⟩
  · intro args hodd
    unfold NewKVSProps
    rw [if_pos hodd]
  · intro ps bad rest hbad hlen
    have hrest : rest ≠ [] := by
      intro h
      subst h
      rw [List.length_append, flattenPairs_length] at hlen
      simp at hlen
      omega
    unfold NewKVSProps
    rw [if_neg (by omega), kvsLoop_flatten_bad ps 0 [] bad rest hbad hrest]
    norm_num
  · intro ps
    constructor
    · unfold NewKVSProps
      have heven : (flattenPairs ps).length % 2 = 0 := by
        rw [flattenPairs_length]
        omega
      rw [if_neg (by omega), kvsLoop_flatten_ok ps 0 []]
    · intro k
      rw [alLookup_alCopy, alLookup_nil, orElse_none]
  · intro run args e he
    unfold templaterEntry
    rw [he]

/-- Closed instance of the props validation: an odd list is rejected with
its count, a non-string key is rejected naming position three, and a
well-formed list builds the map. -/
theorem NewKVSProps_validation_witness :
    NewKVSProps [PropValue.pstr "X"] = .error (.oddArgs 1)
    ∧ NewKVSProps [PropValue.pstr "X", PropValue.pstr "x", PropValue.pint 9,
        PropValue.pstr "y"] = .error (.nonStringKey 3)
    ∧ NewKVSProps [PropValue.pstr "X", PropValue.pstr "x"]
      = .ok (alCopy [] [("X", PropValue.pstr "x")]) :=
  ⟨NewKVSProps_validation.1 _ (by decide),
   NewKVSProps_validation.2.1 [("X", PropValue.pstr "x")] (PropValue.pint 9)
     [PropValue.pstr "y"] (by decide) (by decide),
   (NewKVSProps_validation.2.2.1 [("X", PropValue.pstr "x")]).1⟩

/-- Unique-key invariant of Go maps realised on association lists. -/
def keysUnique {α : Type} (l : List (String × α)) : Prop := (l.map Prod.fst).Nodup

theorem alSet_keysUnique {α : Type} {l : List (String × α)} (k : String) (v : α)
    (h : keysUnique l) : keysUnique (alSet l k v) := by
  unfold keysUnique at h ⊢
  unfold alSet
  rw [List.map_append]
  apply List.Nodup.append
  · exact ((List.filter_sublist _).map Prod.fst).nodup h
  · simp
  · intro a ha hb
    simp at hb
    subst hb
    simp at ha

theorem alCopy_keysUnique {α : Type} (src : List (String × α)) :
    ∀ dst : List (String × α), keysUnique dst → keysUnique (alCopy dst src) := by
  induction src with
  | nil => intro dst h; exact h
  | cons kv rest ih =>
    intro dst h
    show keysUnique (alCopy (alSet dst kv.1 kv.2) rest)
    exact ih _ (alSet_keysUnique _ _ h)

theorem alLookupLast_eq_alLookup {α : Type} {l : List (String × α)} (h : keysUnique l)
    (k : String) : alLookupLast l k = alLookup l k := by
  induction l with
  | nil => rfl
  | cons kv rest ih =>
    have hcons : (kv.1 :: rest.map Prod.fst).Nodup := by
      unfold keysUnique at h
      rw [List.map_cons] at h
      exact h
    have hrest : keysUnique rest := (List.nodup_cons.mp hcons).2
    have hmem : kv.1 ∉ rest.map Prod.fst := (List.nodup_cons.mp hcons).1
    rw [alLookupLast, ih hrest]
    by_cases hk : kv.1 = k
    · have hnot : alLookup rest k = none := by
        unfold alLookup
        rw [List.find?_eq_none.mpr]
        · rfl
        · intro x hx
          simp
          intro hxk
          apply hmem
          rw [hk, ← hxk]
          exact List.mem_map_of_mem Prod.fst hx
      rw [hnot]
      unfold alLookup
      rw [List.find?_cons, show (decide (kv.1 = k)) = true by simp [hk]]
      simp [Option.orElse, hk]
    · unfold alLookup
      rw [List.find?_cons, show (decide (kv.1 = k)) = false by simp [hk]]
      simp [Option.orElse, hk]
      cases List.find? (fun kv => kv.1 = k) rest <;> simp

/--
C9 amended.  In the table handed to the template engine by buildFuncMap,
bindings of the configured function table override the engine builtins
and the defaults of funcs.DefaultMap; but a table injected through
WithFuncs is merged under the previously configured table, so for any
name the engine defaults also define, the handed table keeps the default,
not the WithFuncs-supplied function.
-/
theorem funcMap_merge_precedence :
    (∀ (cfgFuncs : FuncMap) (k : String) (v : FuncV), alLookupLast cfgFuncs k = some v →
      alLookup (buildFuncMap cfgFuncs) k = some v)
    ∧ (∀ (m : FuncMap) (k : String) (v : FuncV), alLookupLast defaultMap k = some v →
      alLookup (buildFuncMap (withFuncsMerge m defaultMap)) k = some v) := by
  constructor
  · intro cfgFuncs k v h
    unfold buildFuncMap
    rw [alLookup_alCopy, h]
    rfl
  · intro m k v h
    unfold buildFuncMap
    rw [alLookup_alCopy]
    have huniq : keysUnique (withFuncsMerge m defaultMap) := by
      unfold withFuncsMerge
      exact alCopy_keysUnique _ _ (alCopy_keysUnique _ _ (by simp [keysUnique]))
    rw [alLookupLast_eq_alLookup huniq]
    unfold withFuncsMerge
    rw [alLookup_alCopy, h]
    rfl

/-- Closed instance of the merge precedence: a caller function under the
name props wins when configured directly, while the same name injected
through WithFuncs is shadowed by the engine default. -/
theorem funcMap_merge_precedence_witness :
    alLookup (buildFuncMap [("props", FuncV.caller 7)]) "props" = some (FuncV.caller 7)
    ∧ alLookup (buildFuncMap (withFuncsMerge [("props", FuncV.caller 7)] defaultMap))
        "props" = some FuncV.propsDefault :=
  ⟨funcMap_merge_precedence.1 _ _ _ (by decide),
   funcMap_merge_precedence.2 [("props", FuncV.caller 7)] _ _ (by decide)⟩

/--
C9 counterexample.  The claim that a name present in both the engine
default table and the caller table injected through WithFuncs resolves to
the caller's function is false: for the name props the handed table keeps
the engine default, not the injected caller function.
-/
theorem funcMap_withFuncs_counterexample :
    alLookup (buildFuncMap (withFuncsMerge [("props", FuncV.caller 7)] defaultMap))
        "props" = some FuncV.propsDefault
    ∧ some FuncV.propsDefault ≠ some (FuncV.caller 7) := by
  constructor
  · decide
  · decide

theorem record_name_mem (st : HeadState) (name : String) (args : List PropValue) :
    name ∈ (st.record name args).headSeen := by
  unfold HeadState.record
  by_cases h : st.headSeen.any (fun s => s = name) = true
  · simp only [h, if_true]
    obtain ⟨x, hx, hxe⟩ := List.any_eq_true.mp h
    simp at hxe
    exact hxe ▸ hx
  · simp only [h]
    simp

theorem record_seenArgs (st : HeadState) (name : String) (args : List PropValue) :
    (st.record name args).seenArgs name = st.seenArgs name ++ [args] := by
  unfold HeadState.seenArgs
  show (alLookup (alSet st.propsSeen name (st.seenArgs name ++ [args])) name).getD [] = _
  rw [alLookup_alSet]
  simp
  rfl

/--
C7.  The componentHead executor of one page render deduplicates on the
pair of the component name and the positionally equal argument list:
a pair not yet recorded is recorded first and then rendered, so the
recording precedes the recursion and the recorded pair is visible to any
nested head call; calling again with the same name and argument list is
a no-op yielding empty output and an unchanged state, whatever rendering
did in between (assuming rendering only adds records, as the concrete
executor does); and a call with a different argument list renders again.
-/
theorem headCall_dedup
    (render : String → List PropValue → HeadState → (String × HeadState))
    (hmono : ∀ n a st, HeadState.le st (render n a st).2)
    (st0 : HeadState) (name : String) (args : List PropValue) :
    ((st0.headSeen.any (fun s => s = name)
        && (st0.seenArgs name).any (fun a => a = args)) = false →
      headCall render st0 name args = render name args (st0.record name args))
    ∧ (name ∈ (st0.record name args).headSeen
        ∧ args ∈ (st0.record name args).seenArgs name)
    ∧ (∀ b1 st1, headCall render st0 name args = (b1, st1) →
        headCall render st1 name args = ("", st1))
    ∧ (∀ (st : HeadState) (args2 : List PropValue), args2 ∉ st.seenArgs name →
        headCall render st name args2 = render name args2 (st.record name args2)) := by
  have freshRender : ∀ (st : HeadState) (a : List PropValue), a ∉ st.seenArgs name →
      headCall render st name a = render name a (st.record name a) := by
    intro st a ha
    unfold headCall
    rw [if_neg]
    intro hcond
    have h2 := (Bool.and_eq_true _ _).mp hcond
    obtain ⟨x, hx, hxe⟩ := List.any_eq_true.mp h2.2
    simp at hxe
    exact ha (hxe ▸ hx)
  refine ⟨?_, ⟨record_name_mem st0 name args, ?_⟩, ?_, freshRender⟩
  · intro hcond
    unfold headCall
    rw [if_neg]
    simp [hcond]
  · rw [record_seenArgs]
    simp
  · intro b1 st1 h1
    by_cases hc : (st0.headSeen.any (fun s => s = name)
        && (st0.seenArgs name).any (fun a => a = args)) = true
    · unfold headCall at h1
      rw [if_pos hc] at h1
      have hb : ("" : String) = b1 := congrArg Prod.fst h1
      have hst : st0 = st1 := congrArg Prod.snd h1
      subst hst
      unfold headCall
      rw [if_pos hc]
    · have hcf : ¬ (st0.headSeen.any (fun s => s = name)
          && (st0.seenArgs name).any (fun a => a = args)) = true := hc
      unfold headCall at h1
      rw [if_neg hcf] at h1
      have hst : (render name args (st0.record name args)).2 = st1 :=
        congrArg Prod.snd h1
      have hle := hmono name args (st0.record name args)
      have hname : name ∈ st1.headSeen := by
        rw [← hst]
        exact hle.1 _ (record_name_mem st0 name args)
      have hargs : args ∈ st1.seenArgs name := by
        rw [← hst]
        apply hle.2
        rw [record_seenArgs]
        simp
      unfold headCall
      rw [if_pos]
      rw [Bool.and_eq_true]
      constructor
      · exact List.any_eq_true.mpr ⟨name, hname, by simp⟩
      · exact List.any_eq_true.mpr ⟨args, hargs, by simp⟩

/-- Closed instance of the head dedup: with a rendering that produces a
fragment and records nothing further, the first call renders, the second
identical call yields empty output, and a call with different arguments
renders again. -/
theorem headCall_dedup_witness :
    headCall (fun _ _ st => ("<link>", st)) ⟨[], []⟩ "nav" [PropValue.pstr "a"]
        = ("<link>", HeadState.record ⟨[], []⟩ "nav" [PropValue.pstr "a"])
    ∧ (∀ b1 st1,
        headCall (fun _ _ st => ("<link>", st)) ⟨[], []⟩ "nav" [PropValue.pstr "a"]
          = (b1, st1) →
        headCall (fun _ _ st => ("<link>", st)) st1 "nav" [PropValue.pstr "a"]
          = ("", st1))
    ∧ headCall (fun _ _ st => ("<link>", st))
        (HeadState.record ⟨[], []⟩ "nav" [PropValue.pstr "a"]) "nav" [PropValue.pstr "b"]
      = ("<link>", HeadState.record (HeadState.record ⟨[], []⟩ "nav" [PropValue.pstr "a"])
          "nav" [PropValue.pstr "b"]) :=
  ⟨(headCall_dedup (fun _ _ st => ("<link>", st))
      (fun _ _ st => ⟨fun _ h => h, fun _ _ h => h⟩) ⟨[], []⟩ "nav" [PropValue.pstr "a"]).1
      (by decide),
   (headCall_dedup (fun _ _ st => ("<link>", st))
      (fun _ _ st => ⟨fun _ h => h, fun _ _ h => h⟩) ⟨[], []⟩ "nav"
      [PropValue.pstr "a"]).2.2.1,
   (headCall_dedup (fun _ _ st => ("<link>", st))
      (fun _ _ st => ⟨fun _ h => h, fun _ _ h => h⟩)
      (HeadState.record ⟨[], []⟩ "nav" [PropValue.pstr "a"]) "nav"
      [PropValue.pstr "a"]).2.2.2 _ _ (by decide)⟩

/-- A pages root holding only shop/index.html.tmpl, in walk order. -/
def shopIndexFS : FSList :=
  [(["shop"], true), (["shop", "index.html.tmpl"], false)]

/-- A pages root holding both shop.html.tmpl and shop/index.html.tmpl, in
walk order. -/
def shopBothFS : FSList :=
  [(["shop"], true), (["shop", "index.html.tmpl"], false), (["shop.html.tmpl"], false)]

/--
C2 counterexample.  With both shop.html.tmpl and shop/index.html.tmpl on
disk, findBestFilenameMatchInDir for the query shop returns the index
file, not the exact file the claim promises: the index child remaining
under the node reached after all query segments is appended
unconditionally.
-/
theorem index_overrides_exact_counterexample :
    findBestFilenameMatchInDir "shop" ".html.tmpl" "templates/pages" shopBothFS
      = .ok "shop/index.html.tmpl"
    ∧ "shop/index.html.tmpl" ≠ "shop.html.tmpl" := by
  constructor
  · rfl
  · decide

/--
C2 amended.  With only shop/index.html.tmpl on disk, resolution of the
query shop succeeds and returns the index file's path; with both
shop.html.tmpl and shop/index.html.tmpl on disk, resolution also returns
shop/index.html.tmpl — the index fallback takes precedence over the
exact file, since the index child is appended whenever one remains.
-/
theorem index_fallback_amended :
    findBestFilenameMatchInDir "shop" ".html.tmpl" "templates/pages" shopIndexFS
      = .ok "shop/index.html.tmpl"
    ∧ findBestFilenameMatchInDir "shop" ".html.tmpl" "templates/pages" shopBothFS
      = .ok "shop/index.html.tmpl" :=
  ⟨rfl, rfl⟩

theorem walkQuery_append (pre rest : List String) : ∀ t : SegTree,
    walkQuery t (pre ++ rest) =
      match walkQuery t pre with
      | none => none
      | some (r, n) =>
        match walkQuery n rest with
        | none => none
        | some (r2, n2) => some (r ++ r2, n2) := by
  induction pre with
  | nil =>
    intro t
    show walkQuery t rest = _
    rw [show walkQuery t ([] : List String) = some ([], t) from rfl]
    cases h : walkQuery t rest with
    | none => simp [h]
    | some p =>
      obtain ⟨r2, n2⟩ := p
      simp [h]
  | cons s ss ih =>
    intro t
    have lhs : walkQuery t (s :: (ss ++ rest)) =
        match walkStep t s with
        | none => none
        | some (x, st) =>
          match walkQuery st (ss ++ rest) with
          | none => none
          | some (l, b) => some (x :: l, b) := rfl
    have rhs : walkQuery t (s :: ss) =
        match walkStep t s with
        | none => none
        | some (x, st) =>
          match walkQuery st ss with
          | none => none
          | some (l, b) => some (x :: l, b) := rfl
    show walkQuery t (s :: (ss ++ rest)) = _
    rw [lhs, rhs]
    cases hws : walkStep t s with
    | none => rfl
    | some p =>
      obtain ⟨x, st⟩ := p
      dsimp only
      rw [ih st]
      cases hq : walkQuery st ss with
      | none => rfl
      | some q =>
        obtain ⟨l, b⟩ := q
        dsimp only
        cases hr : walkQuery b rest with
        | none => rfl
        | some r2 =>
          obtain ⟨l2, b2⟩ := r2
          simp

theorem walkQuery_length (q : List String) : ∀ (t : SegTree) (r : List String) (n : SegTree),
    walkQuery t q = some (r, n) → r.length = q.length := by
  induction q with
  | nil =>
    intro t r n h
    rw [walkQuery] at h
    cases h
    rfl
  | cons s ss ih =>
    intro t r n h
    rw [walkQuery] at h
    cases hws : walkStep t s with
    | none => rw [hws] at h; exact absurd h (by simp)
    | some p =>
      obtain ⟨x, st⟩ := p
      rw [hws] at h
      dsimp only at h
      cases hq : walkQuery st ss with
      | none => rw [hq] at h; exact absurd h (by simp)
      | some q2 =>
        obtain ⟨l, b⟩ := q2
        rw [hq] at h
        have hlen2 := ih st l b hq
        cases h
        simp [hlen2]

/--
C1.  In the match-selection phase of findBestFilenameMatchInDir over the
candidates' segment tree, whenever the walk reaches a node that has no
exact-literal child for the query's next segment and two or more sibling
branches, resolution fails with the multiple-wildcard-branches ambiguity
error rather than picking one; and whenever an exact-literal child
matching the query segment exists at that node, it is descended in
preference to any wildcard sibling, so any successful resolution carries
the query's own segment at that position.
-/
theorem resolver_ambiguity_and_exact_preference (cands : List (List String))
    (pre : List String) (seg : String) (post : List String)
    (res : List String) (nd : SegTree)
    (hwalk : walkQuery (buildSegmentTree cands) pre = some (res, nd)) :
    (nd.lookup seg = none → 2 ≤ nd.childCount →
      ∀ filename dir, ∃ n, resolveFromMatches filename dir cands (pre ++ seg :: post)
        = .error (.ambiguous filename dir n))
    ∧ (∀ st, nd.lookup seg = some st →
        ∀ filename dir out,
          resolveFromMatches filename dir cands (pre ++ seg :: post) = .ok out →
          out.get? pre.length = some seg) := by
  constructor
  · intro hlk hcnt filename dir
    have hstep : walkStep nd seg = none := by
      unfold walkStep
      rw [hlk]
      rw [if_pos (by omega)]
    have hnone : walkQuery (buildSegmentTree cands) (pre ++ seg :: post) = none := by
      rw [walkQuery_append, hwalk]
      show (match walkQuery nd (seg :: post) with
        | none => none
        | some (r2, n2) => some (res ++ r2, n2)) = none
      rw [walkQuery, hstep]
    refine ⟨resolveFromMatches.ambiguousCount (buildSegmentTree cands)
      (pre ++ seg :: post), ?_⟩
    simp only [resolveFromMatches]
    split
    · rfl
    · next segs branch heq =>
      rw [hnone] at heq
      exact absurd heq (by simp)
  · intro st hlk filename dir out hok
    have hstep : walkStep nd seg = some (seg, st) := by
      unfold walkStep
      rw [hlk]
    have hlen : res.length = pre.length := walkQuery_length pre _ _ _ hwalk
    have hq2 : walkQuery (buildSegmentTree cands) (pre ++ seg :: post) =
        match walkQuery st post with
        | none => none
        | some (l, b) => some (res ++ seg :: l, b) := by
      rw [walkQuery_append, hwalk]
      dsimp only
      rw [walkQuery, hstep]
      dsimp only
      cases hp : walkQuery st post with
      | none => rfl
      | some p =>
        obtain ⟨l, b⟩ := p
        rfl
    simp only [resolveFromMatches] at hok
    split at hok
    · exact absurd hok (by simp)
    · next segs branch heq =>
      rw [hq2] at heq
      cases hp : walkQuery st post with
      | none =>
        rw [hp] at heq
        exact absurd heq (by simp)
      | some p =>
        obtain ⟨l, b⟩ := p
        rw [hp] at heq
        have hsb : res ++ seg :: l = segs ∧ b = branch := by
          have h1 := (Option.some.injEq _ _).mp heq
          exact ⟨congrArg Prod.fst h1, congrArg Prod.snd h1⟩
        obtain ⟨hsegs, hbr⟩ := hsb
        subst hbr
        subst hsegs
        have hmid : (res ++ seg :: l).get? pre.length = some seg := by
          rw [← hlen, List.get?_append_right (le_refl res.length)]
          simp
        revert hok
        cases b.lookup "index" with
        | none =>
          intro hok
          have hout : out = res ++ seg :: l := by simpa using hok.symm
          rw [hout]
          exact hmid
        | some _ =>
          intro hok
          have hout : out = (res ++ seg :: l) ++ ["index"] := by simpa using hok.symm
          rw [hout, List.get?_append]
          · exact hmid
          · rw [← hlen]
            simp

/-- Closed instances of the resolver tie-break: two sibling wildcard
candidates with no exact match fail ambiguous, and an exact literal
candidate is taken over a wildcard sibling. -/
theorem resolver_ambiguity_and_exact_preference_witness :
    (∃ n, resolveFromMatches "v.html.tmpl" "d" [["\x7ba\x7d"], ["\x7bb\x7d"]] ["v"]
      = .error (.ambiguous "v.html.tmpl" "d" n))
    ∧ resolveFromMatches "v.html.tmpl" "d" [["\x7ba\x7d"], ["v"]] ["v"] = .ok ["v"]
    ∧ (["v"] : List String).get? 0 = some "v" :=
  ⟨(resolver_ambiguity_and_exact_preference [["\x7ba\x7d"], ["\x7bb\x7d"]] [] "v" []
      [] (buildSegmentTree [["\x7ba\x7d"], ["\x7bb\x7d"]]) rfl).1
      rfl (by decide) "v.html.tmpl" "d",
   rfl,
   (resolver_ambiguity_and_exact_preference [["\x7ba\x7d"], ["v"]] [] "v" []
      [] (buildSegmentTree [["\x7ba\x7d"], ["v"]]) rfl).2
      (SegTree.node []) rfl "v.html.tmpl" "d" ["v"] rfl⟩

theorem digitChar_facts (d : Nat) (hd : d < 10) :
    digitVal 10 (digitChar d) = some d ∧ digitChar d ≠ '-' ∧ digitChar d ≠ '+' := by
  interval_cases d <;> exact ⟨by decide, by decide, by decide⟩

theorem natDigitsRev_spec (f : Nat) : ∀ n : Nat, n ≤ f →
    Nat.ofDigits 10 (natDigitsRev f n) = n ∧ ∀ d ∈ natDigitsRev f n, d < 10 := by
  induction f with
  | zero =>
    intro n h
    have : n = 0 := by omega
    subst this
    exact ⟨by simp [natDigitsRev, Nat.ofDigits_nil], by simp [natDigitsRev]⟩
  | succ f ih =>
    intro n h
    by_cases hn : n = 0
    · subst hn
      exact ⟨by simp [natDigitsRev, Nat.ofDigits_nil], by simp [natDigitsRev]⟩
    · have hdiv : n / 10 ≤ f := by omega
      obtain ⟨ih1, ih2⟩ := ih (n / 10) hdiv
      have hstep : natDigitsRev (f + 1) n = n % 10 :: natDigitsRev f (n / 10) := by
        show (if n = 0 then [] else n % 10 :: natDigitsRev f (n / 10)) = _
        rw [if_neg hn]
      constructor
      · rw [hstep, Nat.ofDigits_cons, ih1]
        omega
      · rw [hstep]
        intro d hd
        cases hd with
        | head => omega
        | tail _ h1 => exact ih2 d h1

theorem parseDigits_snoc (l : List Char) (c : Char) :
    parseDigits 10 (l ++ [c]) =
      match parseDigits 10 l, digitVal 10 c with
      | some a, some d => some (a * 10 + d)
      | _, _ => none := by
  unfold parseDigits
  rw [List.foldl_append]
  rfl

theorem parseDigits_rev_map (ds : List Nat) (hds : ∀ d ∈ ds, d < 10) :
    parseDigits 10 ((ds.map digitChar).reverse) = some (Nat.ofDigits 10 ds) := by
  induction ds with
  | nil => simp [parseDigits, Nat.ofDigits_nil]
  | cons d ds ih =>
    have hd : d < 10 := hds d (by simp)
    have hrest : ∀ x ∈ ds, x < 10 := fun x hx => hds x (by simp [hx])
    rw [List.map_cons, List.reverse_cons, parseDigits_snoc, ih hrest,
      (digitChar_facts d hd).1]
    dsimp only
    rw [Nat.ofDigits_cons]
    exact congrArg some (by ring)

theorem parseDigits_natDecimalDigits (n : Nat) :
    parseDigits 10 (natDecimalDigits n) = some n := by
  by_cases hn : n = 0
  · subst hn
    rfl
  · unfold natDecimalDigits
    rw [if_neg hn]
    obtain ⟨h1, h2⟩ := natDigitsRev_spec n n (le_refl n)
    rw [parseDigits_rev_map _ h2, h1]

theorem natDecimalDigits_ne_nil (n : Nat) : natDecimalDigits n ≠ [] := by
  by_cases hn : n = 0
  · subst hn
    decide
  · unfold natDecimalDigits
    rw [if_neg hn]
    have hstep : natDigitsRev n n = n % 10 :: natDigitsRev (n - 1) (n / 10) := by
      cases n with
      | zero => exact absurd rfl hn
      | succ m =>
        show (if m + 1 = 0 then []
          else (m + 1) % 10 :: natDigitsRev m ((m + 1) / 10)) = _
        rw [if_neg (by omega)]
        simp
    rw [hstep]
    simp

theorem natDecimalDigits_heads (n : Nat) :
    ∀ c ∈ natDecimalDigits n, ∃ d, d < 10 ∧ c = digitChar d := by
  by_cases hn : n = 0
  · subst hn
    intro c hc
    simp [natDecimalDigits] at hc
    exact ⟨0, by omega, by rw [hc]; rfl⟩
  · unfold natDecimalDigits
    rw [if_neg hn]
    intro c hc
    rw [List.mem_reverse] at hc
    obtain ⟨d, hd, hcd⟩ := List.mem_map.mp hc
    exact ⟨d, (natDigitsRev_spec n n (le_refl n)).2 d hd, hcd.symm⟩

theorem goParseUint_format (n w : Nat) (h : n < 2 ^ w) :
    goParseUint (formatNat n) 10 w = .ok n := by
  unfold goParseUint formatNat
  rw [show (⟨natDecimalDigits n⟩ : String).data = natDecimalDigits n from rfl]
  rw [if_neg (by exact natDecimalDigits_ne_nil n)]
  rw [parseDigits_natDecimalDigits n]
  dsimp only
  rw [if_pos h]

theorem goParseInt_format (n : Int) (w : Nat)
    (h1 : -((2 : Int) ^ (w - 1)) ≤ n) (h2 : n < 2 ^ (w - 1)) :
    goParseInt (formatInt n) 10 w = .ok n := by
  have hcast : ((2 ^ (w - 1) : Nat) : Int) = (2 : Int) ^ (w - 1) := by push_cast; ring
  by_cases hneg : n < 0
  · have hdata : (formatInt n).data = '-' :: natDecimalDigits n.natAbs := by
      unfold formatInt
      rw [if_pos hneg]
    unfold goParseInt
    rw [hdata]
    dsimp only
    rw [if_pos rfl]
    dsimp only
    rw [if_neg (by exact natDecimalDigits_ne_nil n.natAbs)]
    rw [parseDigits_natDecimalDigits]
    dsimp only
    rw [if_pos rfl]
    have hle : n.natAbs ≤ 2 ^ (w - 1) := by omega
    rw [if_pos hle]
    have heq : -((n.natAbs : Nat) : Int) = n := by omega
    rw [heq]
  · have hdata : (formatInt n).data = natDecimalDigits n.natAbs := by
      unfold formatInt
      rw [if_neg hneg]
    obtain ⟨c, rest, hcr⟩ := List.exists_cons_of_ne_nil (natDecimalDigits_ne_nil n.natAbs)
    obtain ⟨d, hd10, hcd⟩ := natDecimalDigits_heads n.natAbs c (by rw [hcr]; simp)
    obtain ⟨_, hnotminus, hnotplus⟩ := digitChar_facts d hd10
    have hm : ¬ (c = '-') := by rw [hcd]; exact hnotminus
    have hp2 : ¬ (c = '+') := by rw [hcd]; exact hnotplus
    unfold goParseInt
    rw [hdata, hcr]
    dsimp only
    rw [if_neg hm, if_neg hp2]
    dsimp only
    rw [if_neg (show ¬ (c :: rest = []) by simp)]
    rw [show c :: rest = natDecimalDigits n.natAbs from hcr.symm]
    rw [parseDigits_natDecimalDigits]
    dsimp only
    rw [if_neg (show ¬ (false = true) by simp)]
    have hlt : n.natAbs < 2 ^ (w - 1) := by omega
    rw [if_pos hlt]
    have heq : ((n.natAbs : Nat) : Int) = n := by omega
    rw [heq]

theorem pwv_bool (fp : FloatParsers) (v : String) :
    parseWildcardValue fp "bool" v =
      (if asciiLower v = "true" then .ok (.vbool true)
       else if asciiLower v = "false" then .ok (.vbool false)
       else .error ⟨v, "bool", .message "expected \"true\" or \"false\""⟩) := rfl

theorem pwv_int (fp : FloatParsers) (v : String) :
    parseWildcardValue fp "int" v =
      match goParseInt v 10 intSize with
      | .error e => .error ⟨v, "int", .numError e⟩
      | .ok n => .ok (.vint n) := rfl

theorem pwv_int8 (fp : FloatParsers) (v : String) :
    parseWildcardValue fp "int8" v =
      match goParseInt v 10 8 with
      | .error e => .error ⟨v, "int8", .numError e⟩
      | .ok n => .ok (.vint8 n) := rfl

theorem pwv_int16 (fp : FloatParsers) (v : String) :
    parseWildcardValue fp "int16" v =
      match goParseInt v 10 16 with
      | .error e => .error ⟨v, "int16", .numError e⟩
      | .ok n => .ok (.vint16 n) := rfl

theorem pwv_int32 (fp : FloatParsers) (v : String) :
    parseWildcardValue fp "int32" v =
      match goParseInt v 10 32 with
      | .error e => .error ⟨v, "int32", .numError e⟩
      | .ok n => .ok (.vint32 n) := rfl

theorem pwv_int64 (fp : FloatParsers) (v : String) :
    parseWildcardValue fp "int64" v =
      match goParseInt v 10 64 with
      | .error e => .error ⟨v, "int64", .numError e⟩
      | .ok n => .ok (.vint64 n) := rfl

theorem pwv_uint (fp : FloatParsers) (v : String) :
    parseWildcardValue fp "uint" v =
      match goParseUint v 10 intSize with
      | .error e => .error ⟨v, "uint", .numError e⟩
      | .ok n => .ok (.vuint n) := rfl

theorem pwv_uintptr (fp : FloatParsers) (v : String) :
    parseWildcardValue fp "uintptr" v =
      match goParseUint v 10 intSize with
      | .error e => .error ⟨v, "uintptr", .numError e⟩
      | .ok n => .ok (.vuintptr n) := rfl

theorem pwv_uint8 (fp : FloatParsers) (v : String) :
    parseWildcardValue fp "uint8" v =
      match goParseUint v 10 8 with
      | .error e => .error ⟨v, "uint8", .numError e⟩
      | .ok n => .ok (.vuint8 n) := rfl

theorem pwv_uint16 (fp : FloatParsers) (v : String) :
    parseWildcardValue fp "uint16" v =
      match goParseUint v 10 16 with
      | .error e => .error ⟨v, "uint16", .numError e⟩
      | .ok n => .ok (.vuint16 n) := rfl

theorem pwv_uint32 (fp : FloatParsers) (v : String) :
    parseWildcardValue fp "uint32" v =
      match goParseUint v 10 32 with
      | .error e => .error ⟨v, "uint32", .numError e⟩
      | .ok n => .ok (.vuint32 n) := rfl

theorem pwv_uint64 (fp : FloatParsers) (v : String) :
    parseWildcardValue fp "uint64" v =
      match goParseUint v 10 64 with
      | .error e => .error ⟨v, "uint64", .numError e⟩
      | .ok n => .ok (.vuint64 n) := rfl

theorem pwv_rune (fp : FloatParsers) (v : String) :
    parseWildcardValue fp "rune" v =
      match goParseInt v 10 32 with
      | .error e => .error ⟨v, "rune", .numError e⟩
      | .ok n => .ok (.vrune n) := rfl

theorem pwv_string (fp : FloatParsers) (v : String) :
    parseWildcardValue fp "string" v = .ok (.vstr v) := rfl

theorem pwv_float32 (fp : FloatParsers) (v : String) :
    parseWildcardValue fp "float32" v =
      match fp.parseFloat v 32 with
      | .error e => .error ⟨v, "float32", .numError e⟩
      | .ok bits => .ok (.vfloat32 bits) := rfl

theorem pwv_float64 (fp : FloatParsers) (v : String) :
    parseWildcardValue fp "float64" v =
      match fp.parseFloat v 64 with
      | .error e => .error ⟨v, "float64", .numError e⟩
      | .ok bits => .ok (.vfloat64 bits) := rfl

theorem pwv_complex64 (fp : FloatParsers) (v : String) :
    parseWildcardValue fp "complex64" v =
      match fp.parseComplex v 64 with
      | .error e => .error ⟨v, "complex64", .numError e⟩
      | .ok bits => .ok (.vcomplex64 bits) := rfl

theorem pwv_complex128 (fp : FloatParsers) (v : String) :
    parseWildcardValue fp "complex128" v =
      match fp.parseComplex v 128 with
      | .error e => .error ⟨v, "complex128", .numError e⟩
      | .ok bits => .ok (.vcomplex128 bits) := rfl

/-- Render a bool the way Go formats it and parse it back through the
bool branch; the branch lowercases, so the canonical forms parse. -/
theorem bool_roundtrip (fp : FloatParsers) (b : Bool) :
    parseWildcardValue fp "bool" (formatBool b) = .ok (.vbool b) := by
  cases b <;> rfl

/--
C4 amended.  The format-then-coerce round-trip holds for the exactly
parsed types of the vocabulary: booleans, every signed width (int, int8,
int16, int32, int64 and rune) within range under decimal formatting,
every unsigned width (uint, uintptr, uint8, uint16, uint32, uint64)
within range under decimal formatting, and strings verbatim; the stated
particulars hold, including that capturing yes under a bool wildcard
fails with ErrInvalidWildcardValue.  The floating point and complex
branches delegate to the platform parser, and round-trip conditionally
on it: whenever the platform parser maps a value's textual form back to
that value, the coercion returns exactly that value under the typed
constructor, so the round-trip holds for every platform whose
format/parse pair round-trips, as Go's strconv does.  Only the byte type
is excluded: it parses hexadecimal, so decimal formatting does not
round-trip (the counterexample).
-/
theorem coercion_roundtrip_amended (fp : FloatParsers) :
    (∀ b : Bool, parseWildcardValue fp "bool" (formatBool b) = .ok (.vbool b))
    ∧ (∀ v : String, parseWildcardValue fp "string" v = .ok (.vstr v))
    ∧ (∀ n : Int, -((2 : Int) ^ 63) ≤ n → n < 2 ^ 63 →
        parseWildcardValue fp "int" (formatInt n) = .ok (.vint n)
        ∧ parseWildcardValue fp "int64" (formatInt n) = .ok (.vint64 n))
    ∧ (∀ n : Int, -((2 : Int) ^ 7) ≤ n → n < 2 ^ 7 →
        parseWildcardValue fp "int8" (formatInt n) = .ok (.vint8 n))
    ∧ (∀ n : Int, -((2 : Int) ^ 15) ≤ n → n < 2 ^ 15 →
        parseWildcardValue fp "int16" (formatInt n) = .ok (.vint16 n))
    ∧ (∀ n : Int, -((2 : Int) ^ 31) ≤ n → n < 2 ^ 31 →
        parseWildcardValue fp "int32" (formatInt n) = .ok (.vint32 n)
        ∧ parseWildcardValue fp "rune" (formatInt n) = .ok (.vrune n))
    ∧ (∀ n : Nat, n < 2 ^ 64 →
        parseWildcardValue fp "uint" (formatNat n) = .ok (.vuint n)
        ∧ parseWildcardValue fp "uintptr" (formatNat n) = .ok (.vuintptr n)
        ∧ parseWildcardValue fp "uint64" (formatNat n) = .ok (.vuint64 n))
    ∧ (∀ n : Nat, n < 2 ^ 8 →
        parseWildcardValue fp "uint8" (formatNat n) = .ok (.vuint8 n))
    ∧ (∀ n : Nat, n < 2 ^ 16 →
        parseWildcardValue fp "uint16" (formatNat n) = .ok (.vuint16 n))
    ∧ (∀ n : Nat, n < 2 ^ 32 →
        parseWildcardValue fp "uint32" (formatNat n) = .ok (.vuint32 n))
    ∧ parseWildcardValue fp "int64" "-42" = .ok (.vint64 (-42))
    ∧ parseWildcardValue fp "bool" "true" = .ok (.vbool true)
    ∧ parseWildcardValue fp "bool" "yes"
      = .error ⟨"yes", "bool", .message "expected \"true\" or \"false\""⟩
    ∧ (∀ (t : String) (bits : Nat), fp.parseFloat t 32 = .ok bits →
        parseWildcardValue fp "float32" t = .ok (.vfloat32 bits))
    ∧ (∀ (t : String) (bits : Nat), fp.parseFloat t 64 = .ok bits →
        parseWildcardValue fp "float64" t = .ok (.vfloat64 bits))
    ∧ (∀ (t : String) (bits : Nat × Nat), fp.parseComplex t 64 = .ok bits →
        parseWildcardValue fp "complex64" t = .ok (.vcomplex64 bits))
    ∧ (∀ (t : String) (bits : Nat × Nat), fp.parseComplex t 128 = .ok bits →
        parseWildcardValue fp "complex128" t = .ok (.vcomplex128 bits)) := by
  refine ⟨bool_roundtrip fp, pwv_string fp, ?_, ?_, ?_, ?_, ?_, ?_, ?_, ?_, rfl, rfl, rfl,
    ?_, ?_, ?_, ?_⟩
  · intro n hl hr
    constructor
    · rw [pwv_int, show intSize = 64 from rfl,
        goParseInt_format n 64 (by norm_num at hl ⊢; omega) (by norm_num at hr ⊢; omega)]
    · rw [pwv_int64,
        goParseInt_format n 64 (by norm_num at hl ⊢; omega) (by norm_num at hr ⊢; omega)]
  · intro n hl hr
    rw [pwv_int8, goParseInt_format n 8 (by norm_num at hl ⊢; omega)
      (by norm_num at hr ⊢; omega)]
  · intro n hl hr
    rw [pwv_int16, goParseInt_format n 16 (by norm_num at hl ⊢; omega)
      (by norm_num at hr ⊢; omega)]
  · intro n hl hr
    constructor
    · rw [pwv_int32, goParseInt_format n 32 (by norm_num at hl ⊢; omega)
        (by norm_num at hr ⊢; omega)]
    · rw [pwv_rune, goParseInt_format n 32 (by norm_num at hl ⊢; omega)
        (by norm_num at hr ⊢; omega)]
  · intro n h
    refine ⟨?_, ?_, ?_⟩
    · rw [pwv_uint, show intSize = 64 from rfl, goParseUint_format n 64 h]
    · rw [pwv_uintptr, show intSize = 64 from rfl, goParseUint_format n 64 h]
    · rw [pwv_uint64, goParseUint_format n 64 h]
  · intro n h
    rw [pwv_uint8, goParseUint_format n 8 h]
  · intro n h
    rw [pwv_uint16, goParseUint_format n 16 h]
  · intro n h
    rw [pwv_uint32, goParseUint_format n 32 h]
  · intro t bits h
    rw [pwv_float32, h]
  · intro t bits h
    rw [pwv_float64, h]
  · intro t bits h
    rw [pwv_complex64, h]
  · intro t bits h
    rw [pwv_complex128, h]

/-- Closed instances of the coercion round-trip: a negative int8 and a
uint16 both survive format-then-coerce, and a float32 text that the
platform parser maps to a bit pattern coerces to exactly that value. -/
theorem coercion_roundtrip_amended_witness :
    parseWildcardValue nullFloatParsers "int8" (formatInt (-5)) = .ok (.vint8 (-5))
    ∧ parseWildcardValue nullFloatParsers "uint16" (formatNat 777)
      = .ok (.vuint16 777)
    ∧ parseWildcardValue sampleFloatParsers "float32" "1.5"
      = .ok (.vfloat32 1069547520) :=
  ⟨(coercion_roundtrip_amended nullFloatParsers).2.2.2.1 (-5) (by norm_num) (by norm_num),
   (coercion_roundtrip_amended nullFloatParsers).2.2.2.2.2.2.2.2.1 777 (by norm_num),
   (coercion_roundtrip_amended
      sampleFloatParsers).2.2.2.2.2.2.2.2.2.2.2.2.2.1 "1.5" 1069547520 rfl⟩

/--
C4 counterexample.  The byte branch parses hexadecimal, so the claimed
round-trip for every supported type fails at the byte value ten: its
decimal text 10 coerces to sixteen, not back to ten.
-/
theorem coercion_roundtrip_counterexample :
    parseWildcardValue nullFloatParsers "byte" (formatNat 10) = .ok (.vbyte 16)
    ∧ GoValue.vbyte 16 ≠ GoValue.vbyte 10 := by
  constructor
  · rfl
  · decide

theorem extFromRev_pass (l : List Char) (hl : ∀ c ∈ l, c ≠ '.' ∧ c ≠ '/') :
    ∀ (acc rest : List Char), extFromRev acc (l.reverse ++ rest) = extFromRev (l ++ acc) rest := by
  induction l with
  | nil => intro acc rest; rfl
  | cons c cs ih =>
    intro acc rest
    have hc := hl c (by simp)
    have hcs : ∀ x ∈ cs, x ≠ '.' ∧ x ≠ '/' := fun x hx => hl x (by simp [hx])
    rw [List.reverse_cons, List.append_assoc, ih hcs acc ([c] ++ rest)]
    show extFromRev (cs ++ acc) (c :: rest) = _
    rw [extFromRev, if_neg hc.2, if_neg hc.1]
    rfl

theorem extFromRev_noDS (x : List Char) (hx : ∀ c ∈ x, c ≠ '.' ∧ c ≠ '/') :
    extFromRev [] x.reverse = none := by
  have h := extFromRev_pass x hx [] []
  rw [List.append_nil] at h
  rw [h]
  rfl

theorem extFromRev_ext (x r : List Char) (hr : ∀ c ∈ r, c ≠ '.' ∧ c ≠ '/') :
    extFromRev [] (x ++ '.' :: r).reverse = some ('.' :: r) := by
  rw [List.reverse_append, List.reverse_cons, List.append_assoc]
  rw [show (['.'] ++ x.reverse) = '.' :: x.reverse from rfl]
  rw [extFromRev_pass r hr [] ('.' :: x.reverse)]
  rw [extFromRev, if_neg (by decide), if_pos rfl, List.append_nil]

theorem extExtLoop_none (swp : Bool) (base res : List Char)
    (h : extFromRev [] base.reverse = none) : extExtLoop swp base res = res := by
  rw [extExtLoop]
  split
  · rfl
  · next e heq =>
    rw [h] at heq
    cases heq

theorem extExtLoop_stop (swp : Bool) (base res : List Char) (e : List Char)
    (h : extFromRev [] base.reverse = some e)
    (hstop : e = base ∨ (swp = true ∧ base.getLast? = some rbrace)) :
    extExtLoop swp base res = res := by
  rw [extExtLoop]
  split
  · rfl
  · next e2 heq =>
    rw [h] at heq
    cases heq
    rw [if_pos]
    rcases hstop with h1 | h2
    · exact Or.inl h1
    · exact Or.inr h2

theorem extExtLoop_go (swp : Bool) (base res : List Char) (e : List Char)
    (h : extFromRev [] base.reverse = some e)
    (hne : ¬ (e = base)) (hbr : ¬ (swp = true ∧ base.getLast? = some rbrace)) :
    extExtLoop swp base res
      = extExtLoop swp (base.take (base.length - e.length)) (e ++ res) := by
  rw [extExtLoop]
  split
  · next heq =>
    rw [h] at heq
    cases heq
  · next e2 heq =>
    rw [h] at heq
    cases heq
    rw [if_neg]
    rintro (h1 | h2)
    · exact hne h1
    · exact hbr h2

/-- Extension-component shape: a dot followed by a nonempty run free of
dots and slashes. -/
def extCompOk (e : List Char) : Prop :=
  e.head? = some '.' ∧ e.tail ≠ [] ∧ ∀ c ∈ e.tail, c ≠ '.' ∧ c ≠ '/'

instance (e : List Char) : Decidable (extCompOk e) := by
  unfold extCompOk
  infer_instance

theorem extExtLoop_append (swp : Bool) (x : List Char) (hx : x ≠ [])
    (exts : List (List Char)) (hexts : ∀ e ∈ exts, extCompOk e)
    (hbr : swp = true → ∀ e ∈ exts, e.getLast? ≠ some rbrace) :
    ∀ res, extExtLoop swp (x ++ exts.flatten) res = extExtLoop swp x (exts.flatten ++ res) := by
  induction exts using List.reverseRecOn with
  | nil => intro res; simp
  | append_singleton exts e ih =>
    intro res
    obtain ⟨hhead, htail, htds⟩ := hexts e (by simp)
    obtain ⟨c, r, hcr⟩ : ∃ c r, e = c :: r := by
      cases e with
      | nil => simp at hhead
      | cons c r => exact ⟨c, r, rfl⟩
    subst hcr
    have hc : c = '.' := by
      simp at hhead
      exact hhead
    subst hc
    have hrds : ∀ ch ∈ r, ch ≠ '.' ∧ ch ≠ '/' := by
      intro ch hch
      exact htds ch hch
    have hflat : (exts ++ ['.' :: r]).flatten = exts.flatten ++ '.' :: r := by
      rw [List.flatten_append]
      simp
    rw [hflat, ← List.append_assoc]
    have hext : extFromRev [] ((x ++ exts.flatten) ++ '.' :: r).reverse = some ('.' :: r) :=
      extFromRev_ext (x ++ exts.flatten) r hrds
    have hlenne : ¬ ('.' :: r = (x ++ exts.flatten) ++ '.' :: r) := by
      intro heq
      have hlen := congrArg List.length heq
      simp at hlen
      obtain ⟨c0, t0, hct⟩ := List.exists_cons_of_ne_nil hx
      rw [hct] at hlen
      simp at hlen
      omega
    have hbrne : ¬ (swp = true ∧ ((x ++ exts.flatten) ++ '.' :: r).getLast? = some rbrace) := by
      rintro ⟨hswp, hlast⟩
      rw [List.getLast?_append_of_ne_nil _ (by simp)] at hlast
      exact hbr hswp ('.' :: r) (by simp) hlast
    rw [extExtLoop_go swp _ res ('.' :: r) hext hlenne hbrne]
    have htake : ((x ++ exts.flatten) ++ '.' :: r).take
        (((x ++ exts.flatten) ++ '.' :: r).length - ('.' :: r).length)
        = x ++ exts.flatten := by
      rw [List.length_append]
      rw [Nat.add_sub_cancel]
      exact List.take_left _ _
    rw [htake]
    rw [ih (fun e2 he2 => hexts e2 (by simp [he2]))
      (fun hs e2 he2 => hbr hs e2 (by simp [he2])) (('.' :: r) ++ res)]
    rw [List.append_assoc]

theorem dropWhile_of_head_neg {p : Char → Bool} (c : Char) (t : List Char)
    (hc : ¬ p c = true) : List.dropWhile p (c :: t) = c :: t := by
  rw [List.dropWhile_cons, if_neg hc]

theorem goPathBase_append (d y : List Char) (hy : y ≠ []) (hysl : ∀ c ∈ y, c ≠ '/') :
    goPathBase ⟨d ++ '/' :: y⟩ = ⟨y⟩ := by
  unfold goPathBase
  rw [if_neg (by simp)]
  have hrev : (d ++ '/' :: y).reverse = y.reverse ++ '/' :: d.reverse := by
    simp
  have hdrop : dropTrailing '/' (d ++ '/' :: y) = d ++ '/' :: y := by
    unfold dropTrailing
    obtain ⟨c0, t0, hct⟩ := List.exists_cons_of_ne_nil (show y.reverse ≠ [] by simp [hy])
    have hc0y : c0 ∈ y := by
      have hmem : c0 ∈ y.reverse := by rw [hct]; simp
      simpa using hmem
    rw [hrev, hct, List.cons_append,
      dropWhile_of_head_neg c0 _ (by simp [hysl c0 hc0y]),
      ← List.cons_append, ← hct, ← hrev, List.reverse_reverse]
  rw [hdrop]
  rw [if_neg (by simp)]
  have hlast : lastComponent (d ++ '/' :: y) = y := by
    unfold lastComponent
    rw [hrev, List.takeWhile_append]
    rw [if_pos]
    · rw [List.takeWhile_cons]
      rw [if_neg (by simp)]
      simp
    · rw [List.takeWhile_eq_self_iff.mpr]
      intro c hc
      have : c ∈ y := by simpa using hc
      simp [hysl c this]
  rw [hlast]

theorem extExtLoop_noDS (swp : Bool) (x : List Char)
    (hx : ∀ c ∈ x, c ≠ '.' ∧ c ≠ '/') (res : List Char) :
    extExtLoop swp x res = res :=
  extExtLoop_none swp x res (extFromRev_noDS x hx)

theorem extExtLoop_brace (x : List Char) (hxl : x.getLast? = some rbrace)
    (res : List Char) : extExtLoop true x res = res := by
  cases h : extFromRev [] x.reverse with
  | none => exact extExtLoop_none true x res h
  | some e => exact extExtLoop_stop true x res e h (Or.inr ⟨rfl, hxl⟩)

theorem getExtendedExtension_expand (p : String) :
    getExtendedExtension p
      = ⟨extExtLoop (decide ((goPathBase p).data.head? = some lbrace))
          (goPathBase p).data []⟩ := rfl

theorem flatten_no_slash (exts : List (List Char)) (hexts : ∀ e ∈ exts, extCompOk e) :
    ∀ c ∈ exts.flatten, c ≠ '/' := by
  intro c hc
  obtain ⟨e, he, hce⟩ := List.mem_flatten.mp hc
  obtain ⟨hh, _, hts⟩ := hexts e he
  cases e with
  | nil => cases hce
  | cons c0 t =>
    have hc0 : c0 = '.' := by simpa using hh
    cases hce with
    | head =>
      rw [hc0]
      decide
    | tail _ hmem => exact (hts c hmem).2

theorem getExtExt_plain (d x : List Char) (exts : List (List Char))
    (hxne : x ≠ []) (hxds : ∀ c ∈ x, c ≠ '.' ∧ c ≠ '/') (hxb : x.head? ≠ some lbrace)
    (hexts : ∀ e ∈ exts, extCompOk e) :
    getExtendedExtension ⟨d ++ '/' :: (x ++ exts.flatten)⟩ = ⟨exts.flatten⟩ := by
  have hyne : x ++ exts.flatten ≠ [] := fun h => hxne (List.append_eq_nil.mp h).1
  have hysl : ∀ c ∈ x ++ exts.flatten, c ≠ '/' := by
    intro c hc
    rcases List.mem_append.mp hc with h | h
    · exact (hxds c h).2
    · exact flatten_no_slash exts hexts c h
  rw [getExtendedExtension_expand, goPathBase_append d _ hyne hysl]
  have hswp : (decide ((⟨x ++ exts.flatten⟩ : String).data.head? = some lbrace)) = false := by
    apply decide_eq_false
    show ¬ ((x ++ exts.flatten).head? = some lbrace)
    rw [List.head?_append_of_ne_nil x hxne]
    exact hxb
  rw [hswp]
  show (⟨extExtLoop false (x ++ exts.flatten) []⟩ : String) = _
  rw [extExtLoop_append false x hxne exts hexts (fun h => absurd h (by simp)) [],
    List.append_nil, extExtLoop_noDS false x hxds]

theorem getExtExt_wildcard (d x : List Char) (exts : List (List Char))
    (hxne : x ≠ []) (hxh : x.head? = some lbrace) (hxl : x.getLast? = some rbrace)
    (hxsl : ∀ c ∈ x, c ≠ '/') (hexts : ∀ e ∈ exts, extCompOk e)
    (hbr : ∀ e ∈ exts, e.getLast? ≠ some rbrace) :
    getExtendedExtension ⟨d ++ '/' :: (x ++ exts.flatten)⟩ = ⟨exts.flatten⟩ := by
  have hyne : x ++ exts.flatten ≠ [] := fun h => hxne (List.append_eq_nil.mp h).1
  have hysl : ∀ c ∈ x ++ exts.flatten, c ≠ '/' := by
    intro c hc
    rcases List.mem_append.mp hc with h | h
    · exact hxsl c h
    · exact flatten_no_slash exts hexts c h
  rw [getExtendedExtension_expand, goPathBase_append d _ hyne hysl]
  have hswp : (decide ((⟨x ++ exts.flatten⟩ : String).data.head? = some lbrace)) = true := by
    apply decide_eq_true
    show (x ++ exts.flatten).head? = some lbrace
    rw [List.head?_append_of_ne_nil x hxne]
    exact hxh
  rw [hswp]
  show (⟨extExtLoop true (x ++ exts.flatten) []⟩ : String) = _
  rw [extExtLoop_append true x hxne exts hexts (fun _ => hbr) [],
    List.append_nil, extExtLoop_brace x hxl]

/--
C10.  getExtendedExtension returns the concatenation of the trailing
dot-suffixes of the final path component, stripped repeatedly: for any
directory prefix, any dot-and-slash-free stem not opening a brace, and
any chain of extension components, the result is exactly the chain (so a
final component ending in .html.tmpl yields .html.tmpl); and it stops
before truncating a wildcard-bracketed terminal segment: a stem opening
a left brace and closing a right brace is left verbatim however many
dots it contains, so a/{n.int64}.html.tmpl yields .html.tmpl with the
.int64 type suffix not consumed.
-/
theorem getExtendedExtension_trailing_suffixes :
    (∀ (d x : List Char) (exts : List (List Char)),
      x ≠ [] → (∀ c ∈ x, c ≠ '.' ∧ c ≠ '/') → x.head? ≠ some lbrace →
      (∀ e ∈ exts, extCompOk e) →
      getExtendedExtension ⟨d ++ '/' :: (x ++ exts.flatten)⟩ = ⟨exts.flatten⟩)
    ∧ (∀ (d x : List Char) (exts : List (List Char)),
      x ≠ [] → x.head? = some lbrace → x.getLast? = some rbrace →
      (∀ c ∈ x, c ≠ '/') → (∀ e ∈ exts, extCompOk e) →
      (∀ e ∈ exts, e.getLast? ≠ some rbrace) →
      getExtendedExtension ⟨d ++ '/' :: (x ++ exts.flatten)⟩ = ⟨exts.flatten⟩)
    ∧ getExtendedExtension "a/\x7bn.int64\x7d.html.tmpl" = ".html.tmpl" := by
  refine ⟨getExtExt_plain, getExtExt_wildcard, ?_⟩
  have h := getExtExt_wildcard ['a'] ("\x7bn.int64\x7d".data)
    [".html".data, ".tmpl".data] (by decide) (by decide) (by decide) (by decide)
    (by decide) (by decide)
  have heq1 : ("a/\x7bn.int64\x7d.html.tmpl" : String)
      = ⟨['a'] ++ '/' :: ("\x7bn.int64\x7d".data
          ++ ([".html".data, ".tmpl".data]).flatten)⟩ := by decide
  rw [heq1, h]
  decide

/-- Closed instance of the extension stripping: dir/page.html.tmpl yields
the two-suffix chain .html.tmpl. -/
theorem getExtendedExtension_trailing_suffixes_witness :
    getExtendedExtension ⟨"dir".data ++ '/' :: ("page".data
        ++ ([".html".data, ".tmpl".data]).flatten)⟩
      = ⟨([".html".data, ".tmpl".data]).flatten⟩ :=
  getExtendedExtension_trailing_suffixes.1 "dir".data "page".data
    [".html".data, ".tmpl".data] (by decide) (by decide) (by decide) (by decide)

end Templater
